import Mathlib

/-!
Verification of the example functions in the PyHEP-2022 presentation
notebook (`PyHEP.ipynb`).

The notebook defines a handful of small numerical demonstration
functions (a tanh-trace benchmark, a timing helper, a transverse
momentum calculation, template/overload selection loops, and a
Lennard-Jones potential demo).  This development gives a shallow
embedding of each of them and proves the functional properties they
are meant to illustrate.

Modelling conventions:
* Python/NumPy floating point values are idealised as real numbers `ℝ`;
  `np.int32` values are idealised as integers `ℤ`.
* External library calls that the notebook does not implement are made
  explicit: `np.tanh` and `math.sqrt` become `Real.tanh` and
  `Real.sqrt`; the C++ `tanh` reached through `cppyy.gbl` becomes a
  function parameter; `time.perf_counter` becomes a stream of clock
  readings consumed left to right.
* A NumPy array or C++ `std::vector` is a `List`; indexed `for` loops
  become folds over `List.finRange`/`List.range`/`List.range'` so that
  the iteration order and index ranges of the source are preserved.
-/

namespace PyHEP

/-! ### The tanh-trace example (notebook cells 5 and 12) -/

/-- Source `python_trace(a)`: sums `np.tanh(a[i, i])` for `i` in
`range(a.shape[0])` into `trace` and returns `a + trace`
(NumPy broadcast: the scalar is added to every entry). -/
noncomputable def python_trace {n : ℕ} (a : Matrix (Fin n) (Fin n) ℝ) :
    Matrix (Fin n) (Fin n) ℝ :=
  let trace : ℝ := (List.finRange n).foldl (fun t i => t + Real.tanh (a i i)) 0
  Matrix.of fun i j => a i j + trace

/-- Source `numba_trace(a)`: body identical to `python_trace`, the
`@jit(nopython=True)` decorator only changes how it is executed. -/
noncomputable def numba_trace {n : ℕ} (a : Matrix (Fin n) (Fin n) ℝ) :
    Matrix (Fin n) (Fin n) ℝ :=
  let trace : ℝ := (List.finRange n).foldl (fun t i => t + Real.tanh (a i i)) 0
  Matrix.of fun i j => a i j + trace

/-- Source `cppyy_numba_trace(a)`: same loop, but the tanh applied to the
diagonal entries is `cppyy.gbl.tanh`, an external C++ function, here a
parameter `cppTanh`. -/
noncomputable def cppyy_numba_trace {n : ℕ} (cppTanh : ℝ → ℝ)
    (a : Matrix (Fin n) (Fin n) ℝ) : Matrix (Fin n) (Fin n) ℝ :=
  let trace : ℝ := (List.finRange n).foldl (fun t i => t + cppTanh (a i i)) 0
  Matrix.of fun i j => a i j + trace

/-! ### The timing helper (notebook cell 6) -/

/-- Source `measure_execution(func, args)`: reads `time.perf_counter`, calls
`func(*args)`, reads the counter again and returns
`(end - start, results)`.  The impure counter is modelled by a stream
`clock : ℕ → ℝ` of successive readings together with the index `k` of
the next unread value; the function also returns the advanced index. -/
noncomputable def measure_execution {α β : Type} (func : α → β) (args : α)
    (clock : ℕ → ℝ) (k : ℕ) : (ℝ × β) × ℕ :=
  let start := clock k
  let results := func args
  let elapsed := clock (k + 1) - start
  ((elapsed, results), k + 2)

/-! ### Generic loop lemmas -/

/-- Accumulating `f` over a list with `+=` starting from `c` computes
`c` plus the sum of the mapped list. -/
theorem foldl_add_map {α M : Type} [AddMonoid M] (f : α → M) :
    ∀ (l : List α) (c : M),
      l.foldl (fun t x => t + f x) c = c + (l.map f).sum := by
  intro l
  induction l with
  | nil => intro c; simp
  | cons x xs ih =>
      intro c
      simp only [List.foldl_cons, List.map_cons, List.sum_cons, ih, add_assoc]

/-- The `trace` accumulator of the tanh-trace loops equals the sum of
`tanh` over the diagonal. -/
theorem trace_loop_eq_sum {n : ℕ} (g : ℝ → ℝ) (a : Matrix (Fin n) (Fin n) ℝ) :
    (List.finRange n).foldl (fun t i => t + g (a i i)) 0 =
      ∑ i : Fin n, g (a i i) := by
  rw [foldl_add_map, zero_add, Fin.sum_univ_def]

/-- C1: for every real square matrix `a` of shape `(n, n)`,
`python_trace a` is `a` with the scalar `t = ∑ i, tanh (a i i)` added
to every entry. -/
theorem python_trace_correct {n : ℕ} (a : Matrix (Fin n) (Fin n) ℝ)
    (i j : Fin n) :
    python_trace a i j = a i j + ∑ k : Fin n, Real.tanh (a k k) := by
  simp only [python_trace, Matrix.of_apply, trace_loop_eq_sum]

/-- C2: `measure_execution func args` returns the pair
`(elapsed, results)` where `results` is exactly `func args` unmodified
and `elapsed` is the difference of the two consecutive clock readings
taken around the call; the clock index advances past both readings. -/
theorem measure_execution_pass_through {α β : Type} (func : α → β) (args : α)
    (clock : ℕ → ℝ) (k : ℕ) :
    measure_execution func args clock k =
      ((clock (k + 1) - clock k, func args), k + 2) := rfl

/-- C6: if the C++ `tanh` reached through `cppyy.gbl` agrees pointwise
with `np.tanh`, then `cppyy_numba_trace` computes the same function as
`python_trace`. -/
theorem cppyy_numba_trace_refines_python {n : ℕ} (cppTanh : ℝ → ℝ)
    (a : Matrix (Fin n) (Fin n) ℝ) (h : ∀ x, cppTanh x = Real.tanh x) :
    cppyy_numba_trace cppTanh a = python_trace a := by
  have hf : cppTanh = Real.tanh := funext h
  rw [cppyy_numba_trace, hf, python_trace]

/-- Witness for C6 at `cppTanh = Real.tanh` and a concrete `1 × 1`
matrix. -/
theorem cppyy_numba_trace_refines_python_witness :
    (∀ x : ℝ, Real.tanh x = Real.tanh x) ∧
      cppyy_numba_trace Real.tanh (Matrix.of fun _ _ : Fin 1 => (2 : ℝ)) =
        python_trace (Matrix.of fun _ _ : Fin 1 => (2 : ℝ)) :=
  ⟨fun _ => rfl,
    cppyy_numba_trace_refines_python Real.tanh _ (fun _ => rfl)⟩

/-! ### The transverse momentum example (notebook cell 28) -/

/-- Model of the external ROOT class `TLorentzVector` as seen by the
notebook: the values returned by its accessor methods `Px()`, `Py()`,
`Pz()`, `E()` and `Pt()`.  `Pt` is whatever ROOT's own implementation
returns; the notebook does not constrain it. -/
structure TLorentzVector where
  Px : ℝ
  Py : ℝ
  Pz : ℝ
  E : ℝ
  Pt : ℝ

/-- Source `calc_pt(lv)` returns `math.sqrt(lv.Px() ** 2 + lv.Py() ** 2)`. -/
noncomputable def calc_pt (lv : TLorentzVector) : ℝ :=
  Real.sqrt (lv.Px ^ 2 + lv.Py ^ 2)

/-- Source `calc_pt_vec(vec_lv)`: starts from the empty list `pt` and for `i`
in `range(vec_lv.size())` appends the pair
`(calc_pt(vec_lv[i]), vec_lv[i].Pt())`. -/
noncomputable def calc_pt_vec (vec_lv : List TLorentzVector) : List (ℝ × ℝ) :=
  (List.finRange vec_lv.length).foldl
    (fun pt i => pt ++ [(calc_pt (vec_lv.get i), (vec_lv.get i).Pt)]) []

/-- Source `numba_calc_pt(lv)`: body identical to `calc_pt`, only the
`@numba.njit` decorator differs. -/
noncomputable def numba_calc_pt (lv : TLorentzVector) : ℝ :=
  Real.sqrt (lv.Px ^ 2 + lv.Py ^ 2)

/-- Appending `f x` for each list element builds `c ++ l.map f`. -/
theorem foldl_append_map {α β : Type} (f : α → β) :
    ∀ (l : List α) (c : List β),
      l.foldl (fun acc x => acc ++ [f x]) c = c ++ l.map f := by
  intro l
  induction l with
  | nil => intro c; simp
  | cons x xs ih =>
      intro c
      simp only [List.foldl_cons, List.map_cons, ih, List.append_assoc,
        List.singleton_append]

/-- The append loop of `calc_pt_vec` produces the elementwise map. -/
theorem calc_pt_vec_eq_map (vec_lv : List TLorentzVector) :
    calc_pt_vec vec_lv = vec_lv.map fun lv => (calc_pt lv, lv.Pt) := by
  rw [calc_pt_vec, foldl_append_map, List.nil_append]
  rw [show (fun i => (calc_pt (vec_lv.get i), (vec_lv.get i).Pt)) =
      (fun lv : TLorentzVector => (calc_pt lv, lv.Pt)) ∘ vec_lv.get from rfl]
  rw [← List.map_map, List.finRange_map_get]

/-- C3: `calc_pt lv` is `sqrt (Px lv ^ 2 + Py lv ^ 2)`, and
`calc_pt_vec vec_lv` has length `vec_lv.length` with `i`-th element
`(calc_pt (vec_lv i), (vec_lv i).Pt)`. -/
theorem calc_pt_vec_correct (vec_lv : List TLorentzVector) :
    (∀ lv : TLorentzVector, calc_pt lv = Real.sqrt (lv.Px ^ 2 + lv.Py ^ 2)) ∧
      (calc_pt_vec vec_lv).length = vec_lv.length ∧
      ∀ i : Fin vec_lv.length,
        (calc_pt_vec vec_lv)[i.val]? =
          some (calc_pt (vec_lv.get i), (vec_lv.get i).Pt) := by
  refine ⟨fun lv => rfl, ?_, ?_⟩
  · rw [calc_pt_vec_eq_map, List.length_map]
  · intro i
    rw [calc_pt_vec_eq_map, List.getElem?_map, List.getElem?_eq_getElem i.isLt]
    simp [List.get_eq_getElem]

/-- C8: the JIT-decorated functions are extensionally equal to their
undecorated pure-Python counterparts: `numba_trace = python_trace` and
`numba_calc_pt = calc_pt`. -/
theorem jitted_matches_python :
    (∀ (n : ℕ) (a : Matrix (Fin n) (Fin n) ℝ), numba_trace a = python_trace a) ∧
      (∀ lv : TLorentzVector, numba_calc_pt lv = calc_pt lv) :=
  ⟨fun _ _ => rfl, fun _ => rfl⟩

/-! ### Template instantiation and overload selection
(notebook cells 19 and 21) -/

/-- The C++ template declared through `cppyy.cppdef`:
`template<typename T> T square(T t) \x7b return t*t; \x7d`, instantiated
at the element type of the array. -/
def square {α : Type} [Mul α] (t : α) : α := t * t

/-- Source `tsa(a)`: initialises `total = type(a[0])(0)` — which indexes
`a[0]` and therefore fails on an empty array, hence the `Option` — and
accumulates `total += cppyy.gbl.square(a[i])` for `i` in
`range(len(a))`. -/
def tsa {α : Type} [NonUnitalNonAssocSemiring α] (a : List α) : Option α :=
  match a with
  | [] => none
  | _ :: _ =>
      some ((List.finRange a.length).foldl
        (fun total i => total + square (a.get i)) 0)

/-- The `int` overload declared through `cppyy.cppdef`:
`int mul(int x) \x7b return x * 2; \x7d`. -/
def mulInt (x : ℤ) : ℤ := x * 2

/-- The `float` overload declared through `cppyy.cppdef`:
`float mul(float x) \x7b return x * 3; \x7d`. -/
noncomputable def mulFloat (x : ℝ) : ℝ := x * 3

/-- Source `oversel(a)`: initialises `total = type(a[0])(0)` (failing on an
empty array) and accumulates `total += cppyy.gbl.mul(a[i])` for `i` in
`range(len(a))`; the overload of `mul` chosen by cppyy for the element
type is the parameter. -/
def oversel {α : Type} [NonUnitalNonAssocSemiring α] (mul : α → α)
    (a : List α) : Option α :=
  match a with
  | [] => none
  | _ :: _ =>
      some ((List.finRange a.length).foldl
        (fun total i => total + mul (a.get i)) 0)

/-- An indexed accumulation loop over a whole list computes the sum of
the mapped list. -/
theorem index_loop_eq_map_sum {α M : Type} [AddMonoid M] (f : α → M)
    (a : List α) :
    (List.finRange a.length).foldl (fun total i => total + f (a.get i)) 0 =
      (a.map f).sum := by
  rw [foldl_add_map, zero_add,
    show (fun i => f (a.get i)) = f ∘ a.get from rfl,
    ← List.map_map, List.finRange_map_get]

/-- C4: on every non-empty array, `tsa` returns the sum of the
elementwise squares `a[i] * a[i]`, accumulated in the element type. -/
theorem tsa_sum_of_squares {α : Type} [NonUnitalNonAssocSemiring α]
    (a : List α) (h : a ≠ []) :
    tsa a = some ((a.map fun x => x * x).sum) := by
  match a with
  | [] => exact absurd rfl h
  | x :: xs =>
      rw [tsa, index_loop_eq_map_sum]
      rfl

/-- Witness for C4 on the integer array `[1, 2, 3]`. -/
theorem tsa_sum_of_squares_witness :
    ([1, 2, 3] : List ℤ) ≠ [] ∧
      tsa ([1, 2, 3] : List ℤ) =
        some ((([1, 2, 3] : List ℤ).map fun x => x * x).sum) :=
  ⟨by decide, tsa_sum_of_squares [1, 2, 3] (by decide)⟩

/-- Summing the elements of a list each multiplied on the right by a
constant is the constant times the list sum. -/
theorem sum_map_mul_const {α : Type} [CommSemiring α] (c : α) (l : List α) :
    (l.map fun y => y * c).sum = c * l.sum := by
  induction l with
  | nil => simp
  | cons x xs ih =>
      rw [List.map_cons, List.sum_cons, List.sum_cons, ih, mul_add,
        mul_comm x c]

/-- C5: cppyy's overload selection dispatches on the element type: on a
non-empty `int32` array `oversel` (with the `int` overload `x * 2`)
returns twice the element sum, and on a non-empty `float32` array (with
the `float` overload `x * 3`) three times the element sum. -/
theorem oversel_dispatch :
    (∀ a : List ℤ, a ≠ [] → oversel mulInt a = some (2 * a.sum)) ∧
      (∀ a : List ℝ, a ≠ [] → oversel mulFloat a = some (3 * a.sum)) := by
  constructor
  · intro a h
    match a with
    | [] => exact absurd rfl h
    | x :: xs =>
        rw [oversel, index_loop_eq_map_sum,
          show List.map mulInt (x :: xs) =
            List.map (fun y : ℤ => y * 2) (x :: xs) from rfl,
          sum_map_mul_const]
  · intro a h
    match a with
    | [] => exact absurd rfl h
    | x :: xs =>
        rw [oversel, index_loop_eq_map_sum,
          show List.map mulFloat (x :: xs) =
            List.map (fun y : ℝ => y * 3) (x :: xs) from rfl,
          sum_map_mul_const]

/-- Witness for C5 on the integer array `[1, 2, 3]`. -/
theorem oversel_dispatch_witness :
    ([1, 2, 3] : List ℤ) ≠ [] ∧
      oversel mulInt ([1, 2, 3] : List ℤ) =
        some (2 * ([1, 2, 3] : List ℤ).sum) :=
  ⟨by decide, oversel_dispatch.1 [1, 2, 3] (by decide)⟩

/-! ### The Lennard-Jones demo (notebook cell 24) -/

/-- The C++ `struct Atom \x7b float x; float y; float z; \x7d` declared
through `cppyy.cppdef`, coordinates idealised as reals. -/
@[ext]
structure Atom where
  x : ℝ
  y : ℝ
  z : ℝ

/-- Source `lj_numba_scalar(r)`: `sr6 = (1./r)**6; pot = 4.*(sr6*sr6 - sr6)`. -/
noncomputable def lj_numba_scalar (r : ℝ) : ℝ :=
  let sr6 := (1 / r) ^ 6
  let pot := 4 * (sr6 * sr6 - sr6)
  pot

/-- Source `distance_numba_scalar(atom1, atom2)`: the Euclidean distance
`(dx*dx + dy*dy + dz*dz) ** 0.5`; raising a nonnegative real to the
power `0.5` is its square root. -/
noncomputable def distance_numba_scalar (atom1 atom2 : Atom) : ℝ :=
  let dx := atom2.x - atom1.x
  let dy := atom2.y - atom1.y
  let dz := atom2.z - atom1.z
  Real.sqrt (dx * dx + dy * dy + dz * dz)

/-- Source `potential_numba_scalar(cluster)`: `energy = 0.0`, then for `i` in
`range(cluster.size() - 1)` and `j` in `range(i + 1, cluster.size())`
accumulates `energy += lj_numba_scalar(distance_numba_scalar(cluster[i],
cluster[j]))`.  The C++ `std::vector` is modelled by its size `n` and
its indexing function `cluster`. -/
noncomputable def potential_numba_scalar (n : ℕ) (cluster : ℕ → Atom) : ℝ :=
  (List.range (n - 1)).foldl
    (fun energy i =>
      (List.range' (i + 1) (n - (i + 1))).foldl
        (fun en j =>
          en + lj_numba_scalar (distance_numba_scalar (cluster i) (cluster j)))
        energy)
    0

/-- Summing a map over `List.range` is the `Finset.range` sum. -/
theorem range_map_sum {M : Type} [AddCommMonoid M] (f : ℕ → M) (m : ℕ) :
    ((List.range m).map f).sum = ∑ i ∈ Finset.range m, f i := by
  induction m with
  | zero => simp
  | succ k ih =>
      rw [List.range_succ, List.map_append, List.sum_append,
        Finset.sum_range_succ, ih]
      simp

/-- Summing a map over `List.range' s len` is the sum over the interval
`[s, s + len)`. -/
theorem range'_map_sum {M : Type} [AddCommMonoid M] (f : ℕ → M) :
    ∀ (len s : ℕ),
      ((List.range' s len).map f).sum = ∑ j ∈ Finset.Ico s (s + len), f j := by
  intro len
  induction len with
  | zero => intro s; simp
  | succ k ih =>
      intro s
      rw [List.range'_succ, List.map_cons, List.sum_cons, ih (s + 1),
        show s + (k + 1) = (s + 1) + k from by omega,
        Finset.sum_eq_sum_Ico_succ_bot (by omega : s < (s + 1) + k)]

/-- The nested loops of `potential_numba_scalar` compute the sum of the
pair interactions over all index pairs `i < j < n`. -/
theorem potential_eq_pair_sum (n : ℕ) (cluster : ℕ → Atom) :
    potential_numba_scalar n cluster =
      ∑ i ∈ Finset.range n, ∑ j ∈ Finset.Ico (i + 1) n,
        lj_numba_scalar (distance_numba_scalar (cluster i) (cluster j)) := by
  unfold potential_numba_scalar
  simp only [foldl_add_map, zero_add, range_map_sum, range'_map_sum]
  rcases n with _ | m
  · simp
  · rw [Finset.sum_range_succ, show m + 1 - 1 = m from rfl,
      Finset.Ico_self, Finset.sum_empty, add_zero]
    refine Finset.sum_congr rfl ?_
    intro i hi
    have hi' := Finset.mem_range.mp hi
    have hb : (i + 1) + (m + 1 - (i + 1)) = m + 1 := by omega
    rw [hb]

/-- C9: `potential_numba_scalar` sums the Lennard-Jones interaction
`lj_numba_scalar (distance_numba_scalar (cluster i) (cluster j))` over
each unordered pair `i < j < n` exactly once, and is `0` for clusters
of at most one atom. -/
theorem potential_sums_each_pair_once (n : ℕ) (cluster : ℕ → Atom) :
    (potential_numba_scalar n cluster =
      ∑ i ∈ Finset.range n, ∑ j ∈ Finset.Ico (i + 1) n,
        lj_numba_scalar (distance_numba_scalar (cluster i) (cluster j))) ∧
      (n ≤ 1 → potential_numba_scalar n cluster = 0) := by
  refine ⟨potential_eq_pair_sum n cluster, fun hn => ?_⟩
  rw [potential_eq_pair_sum n cluster]
  rcases Nat.le_one_iff_eq_zero_or_eq_one.mp hn with rfl | rfl
  · simp
  · simp

/-- Witness for C9 on a single-atom cluster. -/
theorem potential_sums_each_pair_once_witness :
    (1 : ℕ) ≤ 1 ∧ potential_numba_scalar 1 (fun _ => ⟨0, 0, 0⟩) = 0 :=
  ⟨le_refl 1,
    (potential_sums_each_pair_once 1 (fun _ => ⟨0, 0, 0⟩)).2 (le_refl 1)⟩

/-! ### Partiality analysis of the Lennard-Jones demo -/

/-- Two atoms are at distance zero exactly when they have identical
coordinates. -/
theorem distance_eq_zero_iff (p q : Atom) :
    distance_numba_scalar p q = 0 ↔ p = q := by
  simp only [distance_numba_scalar]
  rw [Real.sqrt_eq_zero']
  constructor
  · intro h
    have hx2 : (q.x - p.x) * (q.x - p.x) = 0 :=
      le_antisymm
        (by nlinarith [mul_self_nonneg (q.y - p.y), mul_self_nonneg (q.z - p.z)])
        (mul_self_nonneg _)
    have hy2 : (q.y - p.y) * (q.y - p.y) = 0 :=
      le_antisymm
        (by nlinarith [mul_self_nonneg (q.x - p.x), mul_self_nonneg (q.z - p.z)])
        (mul_self_nonneg _)
    have hz2 : (q.z - p.z) * (q.z - p.z) = 0 :=
      le_antisymm
        (by nlinarith [mul_self_nonneg (q.x - p.x), mul_self_nonneg (q.y - p.y)])
        (mul_self_nonneg _)
    ext
    · exact (sub_eq_zero.mp (mul_self_eq_zero.mp hx2)).symm
    · exact (sub_eq_zero.mp (mul_self_eq_zero.mp hy2)).symm
    · exact (sub_eq_zero.mp (mul_self_eq_zero.mp hz2)).symm
  · rintro rfl
    simp

open Classical in
/-- Variant of `lj_numba_scalar` with its single partial operation, the division
`1./r`, made explicit: `none` exactly at `r = 0`, the value of
`lj_numba_scalar` everywhere else. -/
noncomputable def ljChecked (r : ℝ) : Option ℝ :=
  if r = 0 then none else some (lj_numba_scalar r)

/-- Function `ljChecked` succeeds exactly away from `0`. -/
theorem ljChecked_isSome_iff (r : ℝ) : (ljChecked r).isSome ↔ r ≠ 0 := by
  unfold ljChecked
  split <;> simp [*]

/-- Away from `0`, `ljChecked` returns the unchecked value. -/
theorem ljChecked_of_ne (r : ℝ) (h : r ≠ 0) :
    ljChecked r = some (lj_numba_scalar r) := by
  unfold ljChecked
  exact if_neg h

/-- Variant of `potential_numba_scalar` with the partiality of its callee
`lj_numba_scalar` propagated: each loop iteration contributes through
`ljChecked`, and a failed division aborts the whole computation. -/
noncomputable def potentialChecked (n : ℕ) (cluster : ℕ → Atom) : Option ℝ :=
  (List.range (n - 1)).foldl
    (fun energy i =>
      (List.range' (i + 1) (n - (i + 1))).foldl
        (fun en j =>
          en.bind fun e =>
            (ljChecked (distance_numba_scalar (cluster i) (cluster j))).map
              fun v => e + v)
        energy)
    (some 0)

/-- An `Option`-accumulating loop succeeds iff the initial accumulator
and every contribution do. -/
theorem foldl_bind_isSome (g : ℕ → Option ℝ) :
    ∀ (l : List ℕ) (acc : Option ℝ),
      (l.foldl (fun a j => a.bind fun e => (g j).map fun v => e + v)
          acc).isSome
        ↔ (acc.isSome ∧ ∀ j ∈ l, (g j).isSome) := by
  intro l
  induction l with
  | nil => intro acc; simp
  | cons x xs ih =>
      intro acc
      rw [List.foldl_cons, ih]
      cases acc with
      | none => simp
      | some e =>
          cases hgx : g x with
          | none => simp [hgx, List.forall_mem_cons]
          | some v => simp [hgx, List.forall_mem_cons]

/-- Two nested `Option`-accumulating loops succeed iff the initial
accumulator and every contribution of every iteration do. -/
theorem nested_foldl_isSome (g : ℕ → ℕ → Option ℝ) (inner : ℕ → List ℕ) :
    ∀ (l : List ℕ) (acc : Option ℝ),
      (l.foldl
          (fun a i =>
            (inner i).foldl
              (fun a2 j => a2.bind fun e => (g i j).map fun v => e + v) a)
          acc).isSome
        ↔ (acc.isSome ∧ ∀ i ∈ l, ∀ j ∈ inner i, (g i j).isSome) := by
  intro l
  induction l with
  | nil => intro acc; simp
  | cons x xs ih =>
      intro acc
      rw [List.foldl_cons, ih, foldl_bind_isSome]
      simp [List.forall_mem_cons, and_assoc]

/-- The checked potential succeeds exactly when no two atoms compared
by the loops coincide. -/
theorem potentialChecked_isSome_iff (n : ℕ) (cluster : ℕ → Atom) :
    (potentialChecked n cluster).isSome ↔
      ∀ i j : ℕ, i < j → j < n → cluster i ≠ cluster j := by
  unfold potentialChecked
  rw [nested_foldl_isSome]
  simp only [Option.isSome_some, true_and, List.mem_range, List.mem_range'_1,
    ljChecked_isSome_iff]
  constructor
  · intro h i j hij hjn hc
    exact h i (by omega) j ⟨by omega, by omega⟩
      ((distance_eq_zero_iff _ _).mpr hc)
  · intro h i hi j hj
    rw [Ne, distance_eq_zero_iff]
    exact h i j (by omega) (by omega)

/-- C10: the division `1./r` is the single guarded operation of
`lj_numba_scalar`: for every `r ≠ 0` the checked function returns the
unchecked value, and inside `potential_numba_scalar` the
division-by-zero case is unreachable precisely when no two compared
atoms of the cluster have identical coordinates. -/
theorem lj_division_guard :
    (∀ r : ℝ, r ≠ 0 → ljChecked r = some (lj_numba_scalar r)) ∧
      (∀ (n : ℕ) (cluster : ℕ → Atom),
        (potentialChecked n cluster).isSome ↔
          ∀ i j : ℕ, i < j → j < n → cluster i ≠ cluster j) :=
  ⟨fun r h => ljChecked_of_ne r h, fun n c => potentialChecked_isSome_iff n c⟩

/-- Witness for C10 at `r = 1`. -/
theorem lj_division_guard_witness :
    ((1 : ℝ) ≠ 0) ∧ ljChecked 1 = some (lj_numba_scalar 1) :=
  ⟨one_ne_zero, lj_division_guard.1 1 one_ne_zero⟩

/-- C7: none of the embedded example functions performs error handling
of its own: `measure_execution` passes the measured call's value
through unmodified, `tsa` and `oversel` return a normal value whenever
their one fallible callee (indexing `a[0]`) does, `lj_numba_scalar`
returns a normal value whenever its division does, and
`potential_numba_scalar` returns a normal value whenever every
`lj_numba_scalar` call it makes does. -/
theorem no_error_branches :
    (∀ (α β : Type) (func : α → β) (args : α) (clock : ℕ → ℝ) (k : ℕ),
        ((measure_execution func args clock k).1).2 = func args) ∧
      (∀ a : List ℤ, a ≠ [] → (tsa a).isSome) ∧
      (∀ a : List ℤ, a ≠ [] → (oversel mulInt a).isSome) ∧
      (∀ a : List ℝ, a ≠ [] → (oversel mulFloat a).isSome) ∧
      (∀ r : ℝ, r ≠ 0 → (ljChecked r).isSome) ∧
      (∀ (n : ℕ) (cluster : ℕ → Atom),
        (∀ i j : ℕ, i < j → j < n →
            (ljChecked (distance_numba_scalar (cluster i)
              (cluster j))).isSome) →
          (potentialChecked n cluster).isSome) := by
  refine ⟨fun α β f args c k => rfl, ?_, ?_, ?_, ?_, ?_⟩
  · intro a h
    match a with
    | [] => exact absurd rfl h
    | x :: xs => rfl
  · intro a h
    match a with
    | [] => exact absurd rfl h
    | x :: xs => rfl
  · intro a h
    match a with
    | [] => exact absurd rfl h
    | x :: xs => rfl
  · intro r h
    rw [ljChecked_isSome_iff]
    exact h
  · intro n cluster h
    rw [potentialChecked_isSome_iff]
    intro i j hij hjn hc
    have hiso := h i j hij hjn
    rw [ljChecked_isSome_iff] at hiso
    exact hiso ((distance_eq_zero_iff _ _).mpr hc)

/-- Witness for C7 on the integer array `[1]`. -/
theorem no_error_branches_witness :
    (([1] : List ℤ) ≠ []) ∧ (tsa ([1] : List ℤ)).isSome :=
  ⟨by decide, no_error_branches.2.1 [1] (by decide)⟩

end PyHEP
